import Mathlib

/-!
Shallow embedding of `src/audio_my_book/main.py` (cpbotha/audio-my-book).

Text is modelled as `List Char`.  The external text-to-speech service is
modelled by an oracle `Nat → Outcome` giving the outcome of each synthesis
attempt; the filesystem is modelled as the list of file names present in the
single output directory.  Side effects (file writes, requests, sleeps) are
recorded as an event trace.
-/

/-- Python's `\s` character class (ASCII part), as used by `re` in
`re.finditer(r"#\s+(.*)", text)`. -/
def pySpace (c : Char) : Bool :=
  c = ' ' || c = '\t' || c = '\n' || c = '\r' || c = '\x0b' || c = '\x0c'

/-- The character class `[a-zA-Z0-9]` of `slugify`'s regex. -/
def isAsciiAlnum (c : Char) : Bool :=
  ('0' ≤ c && c ≤ '9') || ('A' ≤ c && c ≤ 'Z') || ('a' ≤ c && c ≤ 'z')

/-- The function `slugify`: `re.sub(r"[^a-zA-Z0-9]", "_", chapter_title)` — every character
outside `[a-zA-Z0-9]` is replaced by an underscore. -/
def slugify (t : List Char) : List Char :=
  t.map fun c => if isAsciiAlnum c then c else '_'

/-- Little-endian decimal digits of `n` (empty for 0); `fuel ≥ n` suffices for
the recursion to complete. -/
def decimalDigitsAux : Nat → Nat → List Nat
  | 0, _ => []
  | _ + 1, 0 => []
  | fuel + 1, n + 1 => ((n + 1) % 10) :: decimalDigitsAux fuel ((n + 1) / 10)

/-- Decimal representation of a natural number as characters (as Python's
`str(i)`). -/
def decimalRepr (n : Nat) : List Char :=
  if n = 0 then ['0'] else ((decimalDigitsAux n n).map Nat.digitChar).reverse

/-- Python's format `f"{i:0>3}"`: the decimal representation left-padded with
zeros to width 3. -/
def pad3 (i : Nat) : List Char :=
  List.replicate (3 - (decimalRepr i).length) '0' ++ decimalRepr i

/-- The literal `---` separator of the output file name. -/
def sepList : List Char := ['-', '-', '-']

/-- The audio extension `.mp3`. -/
def mp3Ext : List Char := ['.', 'm', 'p', '3']

/-- The companion text extension `.txt`. -/
def txtExt : List Char := ['.', 't', 'x', 't']

/-- The audio file name `f"{slugify(chapter_title)}---{i:0>3}.mp3"` built in
`_process_chapter`.  (The directory component, `output_dir`, is threaded
separately through the event trace.) -/
def speechFilename (title : List Char) (i : Nat) : List Char :=
  slugify title ++ sepList ++ pad3 i ++ mp3Ext

/-- Model of `pathlib.Path.with_suffix`: replace the part of the name from the last dot
on by `suf`; if the name has no dot, append `suf`.  (Our names always contain
exactly one dot, the `.mp3` one, where Python's remaining edge cases do not
arise.) -/
def withSuffix (name suf : List Char) : List Char :=
  if name.contains '.' then
    (name.reverse.drop ((name.reverse.takeWhile fun c => c ≠ '.').length + 1)).reverse ++ suf
  else name ++ suf

/-- State of the left-to-right scan performed by
`re.finditer(r"#\s+(.*)", text)`:
* `seek` — outside any match, looking for `#` followed by whitespace;
* `ws start` — inside a match that began at offset `start`, consuming the
  greedy `\s+` run;
* `title start acc` — inside the same match, consuming the greedy `(.*)` run
  (characters other than newline), accumulated in reverse in `acc`. -/
inductive ScanMode where
  | seek : ScanMode
  | ws (start : Nat) : ScanMode
  | title (start : Nat) (acc : List Char) : ScanMode
deriving DecidableEq

/-- One-character-at-a-time implementation of
`re.finditer(r"#\s+(.*)", text)`, returning the `(match.start(), match.group(1))`
pairs in document order.  Matches are leftmost and non-overlapping: while a
match's `\s+`/`(.*)` runs are being consumed, no new match can start, exactly
as with `finditer`.  A match ends at a newline or at end of input; the newline
itself is not part of the match and cannot start one, so resuming the scan
after it is equivalent to resuming at it. -/
def scanStep : List Char → Nat → ScanMode → List (Nat × List Char)
  | [], _, ScanMode.seek => []
  | [], _, ScanMode.ws start => [(start, [])]
  | [], _, ScanMode.title start acc => [(start, acc.reverse)]
  | c :: rest, pos, ScanMode.seek =>
    if c = '#' && rest.head?.any pySpace then
      scanStep rest (pos + 1) (ScanMode.ws pos)
    else
      scanStep rest (pos + 1) ScanMode.seek
  | c :: rest, pos, ScanMode.ws start =>
    if pySpace c then
      scanStep rest (pos + 1) (ScanMode.ws start)
    else
      scanStep rest (pos + 1) (ScanMode.title start [c])
  | c :: rest, pos, ScanMode.title start acc =>
    if c = '\n' then
      (start, acc.reverse) :: scanStep rest (pos + 1) ScanMode.seek
    else
      scanStep rest (pos + 1) (ScanMode.title start (c :: acc))

/-- The `chapters` list of `_process_book`: for every match of
`re.finditer(r"#\s+(.*)", text)`, the pair `(match.start(), match.group(1))`. -/
def findHeadings (t : List Char) : List (Nat × List Char) :=
  scanStep t 0 ScanMode.seek

/-- The check `fnmatch.fnmatch(title, "Chapter *")` (on POSIX `os.path.normcase` is the
identity): the glob matches exactly the titles beginning with `Chapter `. -/
def matchesChapterGlob (title : List Char) : Bool :=
  "Chapter ".toList.isPrefixOf title

/-- The selection loop of `_process_book`; `none` models an uncaught
`IndexError`.  For each `(idx, chapter)` of `enumerate(chapters)` whose title
matches the glob, it appends `(chapter[0], chapters[idx + 1][0] if idx <
len(chapters) else -1, chapter[1])`; the subscript `chapters[idx + 1]` raises
`IndexError` when `idx + 1` is out of range. -/
def selectSpans (chs : List (Nat × List Char)) :
    Option (List (Nat × Int × List Char)) :=
  chs.enum.foldlM
    (fun acc p =>
      if matchesChapterGlob p.2.2 then
        if p.1 < chs.length then
          match chs[p.1 + 1]? with
          | some nxt => some (acc ++ [(p.2.1, (nxt.1 : Int), p.2.2)])
          | none => none
        else some (acc ++ [(p.2.1, (-1 : Int), p.2.2)])
      else some acc)
    []

/-- Python string slice `text[start:stop]` for a nonnegative `start` and a
possibly negative `stop` (a negative `stop` counts from the end). -/
def pySlice (l : List Char) (start : Nat) (stop : Int) : List Char :=
  (l.take (if stop < 0 then ((l.length : Int) + stop).toNat else stop.toNat)).drop start

/-- Outcome of one synthesis attempt
(`client.audio.speech.create` + `astream_to_file`). -/
inductive Outcome where
  | success : Outcome
  | rateLimited : Outcome
  | permanentError : Outcome
deriving DecidableEq

/-- How `_process_chunk` finishes: a normal return with the audio written, a
normal return after exhausting the retry budget, or an uncaught exception. -/
inductive ChunkResult where
  | returnedSuccess : ChunkResult
  | returnedFailure : ChunkResult
  | raised : ChunkResult
deriving DecidableEq

/-- Observable side effects of the converter, in order.  File-writing events
carry the output directory and the file name. -/
inductive ChunkEvent where
  | writeTxt (dir name content : List Char) : ChunkEvent
  | request (name : List Char) (attempt : Nat) : ChunkEvent
  | writeAudio (dir name : List Char) : ChunkEvent
  | sleep (seconds : Nat) : ChunkEvent
deriving DecidableEq

/-- The retry loop of `_process_chunk`
(`while not success and retries < max_retries`), with `remaining =
max_retries - retries` and `attempt` the number of requests already issued.
Each iteration issues one request; on success the response is streamed to the
audio file, on `openai.RateLimitError` the loop sleeps `retry_delay` seconds
and retries, and any other exception escapes the `try` uncaught. -/
def processChunkLoop (oracle : Nat → Outcome) (dir name : List Char)
    (rd : Nat) : Nat → Nat → List ChunkEvent × ChunkResult
  | _, 0 => ([], ChunkResult.returnedFailure)
  | attempt, remaining + 1 =>
    match oracle attempt with
    | Outcome.success =>
      ([ChunkEvent.request name attempt, ChunkEvent.writeAudio dir name],
        ChunkResult.returnedSuccess)
    | Outcome.rateLimited =>
      let r := processChunkLoop oracle dir name rd (attempt + 1) remaining
      (ChunkEvent.request name attempt :: ChunkEvent.sleep rd :: r.1, r.2)
    | Outcome.permanentError =>
      ([ChunkEvent.request name attempt], ChunkResult.raised)

/-- The function `_process_chunk(chunk, speech_filename, max_retries=10, retry_delay=5)`:
first `speech_filename.with_suffix(".txt").write_text(chunk)`, then the retry
loop. -/
def processChunk (oracle : Nat → Outcome) (chunk dir name : List Char)
    (mr rd : Nat) : List ChunkEvent × ChunkResult :=
  let r := processChunkLoop oracle dir name rd 0 mr
  (ChunkEvent.writeTxt dir (withSuffix name txtExt) chunk :: r.1, r.2)

/-- The `(directory, name)` a trace event writes to, if it writes a file. -/
def targetPath : ChunkEvent → Option (List Char × List Char)
  | ChunkEvent.writeTxt dir name _ => some (dir, name)
  | ChunkEvent.writeAudio dir name => some (dir, name)
  | _ => none

/-- Whether an event is a synthesis request. -/
def isRequest : ChunkEvent → Bool
  | ChunkEvent.request _ _ => true
  | _ => false

/-- Whether an event writes the companion text file. -/
def isWriteTxt : ChunkEvent → Bool
  | ChunkEvent.writeTxt _ _ _ => true
  | _ => false

/-- Whether an event writes an audio file. -/
def isWriteAudio : ChunkEvent → Bool
  | ChunkEvent.writeAudio _ _ => true
  | _ => false

/-- The loop `for i, chunk in enumerate(text_chunker.chunk(chapter_text))` of
`_process_chapter`, with `i` the running chunk index: build
`speech_filename`, skip the chunk if that file exists, otherwise run
`_process_chunk` on it (with the default `max_retries=10, retry_delay=5`).
`oracle i` gives the attempt outcomes for chunk `i`.  The concurrent chunk
tasks are linearised in index order; the claims proved below concern only
which events occur. -/
def processChapterGo (fs : List (List Char)) (dir title : List Char)
    (oracle : Nat → Nat → Outcome) : Nat → List (List Char) → List ChunkEvent
  | _, [] => []
  | i, chunk :: rest =>
    (if speechFilename title i ∈ fs then []
     else (processChunk (oracle i) chunk dir (speechFilename title i) 10 5).1)
      ++ processChapterGo fs dir title oracle (i + 1) rest

/-- The function `_process_chapter(chapter_text, chapter_title, output_dir)`, with the
chunker's output passed in as `chunks` (the chunker `chunkipy.TextChunker` is
an external dependency). -/
def processChapter (fs : List (List Char)) (dir title : List Char)
    (chunks : List (List Char)) (oracle : Nat → Nat → Outcome) :
    List ChunkEvent :=
  processChapterGo fs dir title oracle 0 chunks

/-- Names of the files written by a trace. -/
def writtenNames (evs : List ChunkEvent) : List (List Char) :=
  evs.filterMap fun e => (targetPath e).map Prod.snd

/-- The file set after running a chapter: the files already present plus the
files the run writes. -/
def runChapter (fs : List (List Char)) (dir title : List Char)
    (chunks : List (List Char)) (oracle : Nat → Nat → Outcome) :
    List (List Char) :=
  fs ++ writtenNames (processChapter fs dir title chunks oracle)

/-- The function `_process_book`: segment the text, select the chapters matching the glob
(this may raise, modelled by `none`), then process every selected chapter over
the slice `text[start:end]`, all writes going to `outDir`
(`input_path.parent` at the call site).  `chunker` abstracts
`text_chunker.chunk` and `oracle ci i n` the outcome of attempt `n` of chunk
`i` of selected chapter `ci`. -/
def processBook (chunker : List Char → List (List Char))
    (oracle : Nat → Nat → Nat → Outcome) (fs : List (List Char))
    (text outDir : List Char) : Option (List ChunkEvent) :=
  (selectSpans (findHeadings text)).map fun spans =>
    spans.enum.flatMap fun p =>
      processChapter fs outDir p.2.2.2 (chunker (pySlice text p.2.1 p.2.2.1))
        (oracle p.1)

/-- Value of a little-endian base-10 digit list (specification-side inverse of
`decimalDigitsAux`). -/
def digitsVal : List Nat → Nat
  | [] => 0
  | d :: ds => d + 10 * digitsVal ds

/-- Value of a big-endian decimal character string; leading zeros do not
change the value. -/
def charsVal (s : List Char) : Nat :=
  s.foldl (fun acc c => 10 * acc + (c.toNat - 48)) 0

/-- Invariant carried by the scanner state: while inside a match that started
at `start`, the text has the marker at `start` and whitespace right after. -/
def modeInv (t : List Char) : ScanMode → Prop
  | ScanMode.seek => True
  | ScanMode.ws start => t[start]? = some '#' ∧ t[start + 1]?.any pySpace = true
  | ScanMode.title start _ => t[start]? = some '#' ∧ t[start + 1]?.any pySpace = true

/-- Lower bound for the start offsets the scanner can still emit. -/
def modeStart (pos : Nat) : ScanMode → Nat
  | ScanMode.seek => pos
  | ScanMode.ws start => start
  | ScanMode.title start _ => start

/-! ### Theorems -/

theorem digitsVal_decimalDigitsAux (fuel : Nat) :
    ∀ n : Nat, n ≤ fuel → digitsVal (decimalDigitsAux fuel n) = n := by
  induction fuel with
  | zero => intro n hn; interval_cases n; simp [decimalDigitsAux, digitsVal]
  | succ fuel ih =>
    intro n hn
    match n with
    | 0 => simp [decimalDigitsAux, digitsVal]
    | m + 1 =>
      have hdiv : (m + 1) / 10 ≤ fuel := by
        have := Nat.div_lt_self (Nat.succ_pos m) (by omega : 1 < 10)
        omega
      simp only [decimalDigitsAux, digitsVal, ih _ hdiv]
      omega

theorem charsVal_append_singleton (xs : List Char) (c : Char) :
    charsVal (xs ++ [c]) = 10 * charsVal xs + (c.toNat - 48) := by
  simp [charsVal, List.foldl_append]

theorem digitChar_toNat_sub (d : Nat) (hd : d < 10) :
    (Nat.digitChar d).toNat - 48 = d := by
  interval_cases d <;> decide

theorem decimalDigitsAux_lt_ten (fuel : Nat) :
    ∀ n : Nat, ∀ d ∈ decimalDigitsAux fuel n, d < 10 := by
  induction fuel with
  | zero => intro n d hd; simp [decimalDigitsAux] at hd
  | succ fuel ih =>
    intro n d hd
    match n with
    | 0 => simp [decimalDigitsAux] at hd
    | m + 1 =>
      simp only [decimalDigitsAux, List.mem_cons] at hd
      rcases hd with h | h
      · omega
      · exact ih _ d h

theorem charsVal_reverse_map_digitChar (L : List Nat) (hL : ∀ d ∈ L, d < 10) :
    charsVal ((L.map Nat.digitChar).reverse) = digitsVal L := by
  induction L with
  | nil => simp [charsVal, digitsVal]
  | cons d ds ih =>
    simp only [List.map_cons, List.reverse_cons, charsVal_append_singleton]
    rw [ih (fun x hx => hL x (List.mem_cons_of_mem d hx)),
      digitChar_toNat_sub d (hL d (List.mem_cons_self d ds))]
    simp [digitsVal]; omega

theorem charsVal_decimalRepr (n : Nat) : charsVal (decimalRepr n) = n := by
  by_cases hn : n = 0
  · subst hn; decide
  · unfold decimalRepr
    rw [if_neg hn, charsVal_reverse_map_digitChar _ (decimalDigitsAux_lt_ten n n),
      digitsVal_decimalDigitsAux n n (le_refl n)]

theorem charsVal_replicate_zero (k : Nat) (s : List Char) :
    charsVal (List.replicate k '0' ++ s) = charsVal s := by
  induction k with
  | zero => simp
  | succ k ih =>
    simp only [List.replicate_succ, List.cons_append]
    simpa [charsVal] using ih

theorem charsVal_pad3 (i : Nat) : charsVal (pad3 i) = i := by
  unfold pad3
  rw [charsVal_replicate_zero, charsVal_decimalRepr]

theorem pad3_inj {i j : Nat} (h : pad3 i = pad3 j) : i = j := by
  have := congrArg charsVal h
  rwa [charsVal_pad3, charsVal_pad3] at this

theorem decimalDigitsAux_length_le (k : Nat) :
    ∀ fuel n : Nat, n < 10 ^ k → (decimalDigitsAux fuel n).length ≤ k := by
  induction k with
  | zero =>
    intro fuel n hn
    have : n = 0 := by simpa using hn
    subst this
    match fuel with
    | 0 => simp [decimalDigitsAux]
    | fuel + 1 => simp [decimalDigitsAux]
  | succ k ih =>
    intro fuel n hn
    match fuel, n with
    | 0, _ => simp [decimalDigitsAux]
    | fuel + 1, 0 => simp [decimalDigitsAux]
    | fuel + 1, m + 1 =>
      simp only [decimalDigitsAux, List.length_cons]
      have hdiv : (m + 1) / 10 < 10 ^ k := by
        rw [Nat.div_lt_iff_lt_mul (by omega : 0 < 10)]
        calc m + 1 < 10 ^ (k + 1) := hn
        _ = 10 ^ k * 10 := by ring
      have := ih fuel ((m + 1) / 10) hdiv
      omega

theorem pad3_length (i : Nat) (hi : i < 1000) : (pad3 i).length = 3 := by
  have hlen : (decimalRepr i).length ≤ 3 := by
    by_cases h0 : i = 0
    · subst h0; decide
    · unfold decimalRepr
      rw [if_neg h0]
      simpa using decimalDigitsAux_length_le 3 i i (by omega)
  simp only [pad3, List.length_append, List.length_replicate]
  omega

theorem slugify_no_dash (t : List Char) : ∀ c ∈ slugify t, c ≠ '-' := by
  intro c hc
  simp only [slugify, List.mem_map] at hc
  obtain ⟨a, _, ha⟩ := hc
  by_cases h : isAsciiAlnum a
  · rw [if_pos h] at ha
    subst ha
    intro hd
    subst hd
    exact absurd h (by decide)
  · rw [if_neg h] at ha
    subst ha
    decide

theorem sep_split_inj :
    ∀ (s1 s2 r1 r2 : List Char), (∀ c ∈ s1, c ≠ '-') → (∀ c ∈ s2, c ≠ '-') →
      s1 ++ '-' :: '-' :: '-' :: r1 = s2 ++ '-' :: '-' :: '-' :: r2 →
      s1 = s2 ∧ r1 = r2 := by
  intro s1
  induction s1 with
  | nil =>
    intro s2 r1 r2 _ h2 heq
    match s2 with
    | [] => simpa using heq
    | c :: s2' =>
      exfalso
      simp only [List.nil_append, List.cons_append, List.cons.injEq] at heq
      exact h2 c (List.mem_cons_self c s2') heq.1.symm
  | cons c s1' ih =>
    intro s2 r1 r2 h1 h2 heq
    match s2 with
    | [] =>
      exfalso
      simp only [List.nil_append, List.cons_append, List.cons.injEq] at heq
      exact h1 c (List.mem_cons_self c s1') heq.1
    | d :: s2' =>
      simp only [List.cons_append, List.cons.injEq] at heq
      obtain ⟨hcd, heq'⟩ := heq
      have := ih s2' r1 r2 (fun x hx => h1 x (List.mem_cons_of_mem c hx))
        (fun x hx => h2 x (List.mem_cons_of_mem d hx)) heq'
      exact ⟨by rw [hcd, this.1], this.2⟩

theorem speechFilename_parts {t1 t2 : List Char} {i1 i2 : Nat}
    (h : speechFilename t1 i1 = speechFilename t2 i2) :
    slugify t1 = slugify t2 ∧ i1 = i2 := by
  have h' : (slugify t1 ++ sepList ++ pad3 i1) ++ mp3Ext
      = (slugify t2 ++ sepList ++ pad3 i2) ++ mp3Ext := by
    simpa [speechFilename, List.append_assoc] using h
  have hbase := List.append_cancel_right h'
  have hsep : slugify t1 ++ '-' :: '-' :: '-' :: pad3 i1
      = slugify t2 ++ '-' :: '-' :: '-' :: pad3 i2 := by
    simpa [sepList, List.append_assoc] using hbase
  have := sep_split_inj (slugify t1) (slugify t2) (pad3 i1) (pad3 i2)
    (slugify_no_dash t1) (slugify_no_dash t2) hsep
  exact ⟨this.1, pad3_inj this.2⟩

theorem withSuffix_append_mp3 (b : List Char) :
    withSuffix (b ++ mp3Ext) txtExt = b ++ txtExt := by
  have hmem : (b ++ mp3Ext).contains '.' = true := by
    simp [List.contains, List.elem_eq_mem, mp3Ext]
  unfold withSuffix
  rw [if_pos hmem]
  have hrev : (b ++ mp3Ext).reverse = '3' :: 'p' :: 'm' :: '.' :: b.reverse := by
    simp [mp3Ext, List.reverse_append]
  rw [hrev]
  have htake : (('3' :: 'p' :: 'm' :: '.' :: b.reverse).takeWhile
      fun c => c ≠ '.') = ['3', 'p', 'm'] := by
    rw [List.takeWhile_cons_of_pos (by decide), List.takeWhile_cons_of_pos (by decide),
      List.takeWhile_cons_of_pos (by decide), List.takeWhile_cons_of_neg (by decide)]
  rw [htake]
  simp [List.drop]

theorem mp3_append_ne_txt_append (b1 b2 : List Char) :
    b1 ++ mp3Ext ≠ b2 ++ txtExt := by
  intro h
  have := congrArg List.reverse h
  simp only [List.reverse_append, mp3Ext, txtExt] at this
  have hh := congrArg List.head? this
  simp at hh

theorem getElem?_eq_head?_drop {α : Type} (t : List α) :
    ∀ pos : Nat, t[pos]? = (t.drop pos).head? := by
  induction t with
  | nil => intro pos; simp
  | cons a t' ih =>
    intro pos
    match pos with
    | 0 => simp
    | pos + 1 =>
      simp only [List.getElem?_cons_succ, List.drop_succ_cons]
      exact ih pos

theorem drop_succ_of_drop_cons {α : Type} {t : List α} {pos : Nat} {c : α}
    {rest : List α} (h : t.drop pos = c :: rest) : t.drop (pos + 1) = rest := by
  rw [← List.drop_drop 1 pos t, h]
  rfl

theorem scanStep_marker :
    ∀ (l : List Char) (pos : Nat) (m : ScanMode) (t : List Char),
      t.drop pos = l → modeInv t m →
      ∀ p ∈ scanStep l pos m, t[p.1]? = some '#' ∧ t[p.1 + 1]?.any pySpace = true := by
  intro l
  induction l with
  | nil =>
    intro pos m t _ hinv p hp
    match m with
    | ScanMode.seek => simp [scanStep] at hp
    | ScanMode.ws start =>
      simp only [scanStep, List.mem_singleton] at hp
      subst hp
      exact hinv
    | ScanMode.title start acc =>
      simp only [scanStep, List.mem_singleton] at hp
      subst hp
      exact hinv
  | cons c rest ih =>
    intro pos m t hdrop hinv p hp
    have hdrop' : t.drop (pos + 1) = rest := drop_succ_of_drop_cons hdrop
    have hhead : t[pos]? = some c := by
      rw [getElem?_eq_head?_drop, hdrop]; rfl
    have hnext : t[pos + 1]? = rest.head? := by
      rw [getElem?_eq_head?_drop, hdrop']
    match m with
    | ScanMode.seek =>
      by_cases hcond : (c = '#' && rest.head?.any pySpace) = true
      · rw [scanStep, if_pos hcond] at hp
        simp only [Bool.and_eq_true, decide_eq_true_eq] at hcond
        have hinv' : modeInv t (ScanMode.ws pos) := by
          refine ⟨?_, ?_⟩
          · rw [hhead, hcond.1]
          · rw [hnext]; exact hcond.2
        exact ih (pos + 1) (ScanMode.ws pos) t hdrop' hinv' p hp
      · rw [scanStep, if_neg hcond] at hp
        exact ih (pos + 1) ScanMode.seek t hdrop' trivial p hp
    | ScanMode.ws start =>
      by_cases hsp : pySpace c = true
      · rw [scanStep, if_pos hsp] at hp
        exact ih (pos + 1) (ScanMode.ws start) t hdrop' hinv p hp
      · rw [scanStep, if_neg hsp] at hp
        exact ih (pos + 1) (ScanMode.title start [c]) t hdrop' hinv p hp
    | ScanMode.title start acc =>
      by_cases hnl : c = '\n'
      · rw [scanStep, if_pos hnl] at hp
        rcases List.mem_cons.mp hp with hp | hp
        · subst hp
          exact hinv
        · exact ih (pos + 1) ScanMode.seek t hdrop' trivial p hp
      · rw [scanStep, if_neg hnl] at hp
        exact ih (pos + 1) (ScanMode.title start (c :: acc)) t hdrop' hinv p hp

theorem scanStep_bound_chain :
    ∀ (l : List Char) (pos : Nat) (m : ScanMode), modeStart pos m ≤ pos →
      (∀ p ∈ scanStep l pos m, modeStart pos m ≤ p.1) ∧
        List.Chain' (fun a b : Nat × List Char => a.1 < b.1) (scanStep l pos m) := by
  intro l
  induction l with
  | nil =>
    intro pos m hle
    match m with
    | ScanMode.seek => exact ⟨by simp [scanStep], by simp [scanStep]⟩
    | ScanMode.ws start =>
      refine ⟨?_, by simp [scanStep]⟩
      intro p hp
      simp only [scanStep, List.mem_singleton] at hp
      subst hp
      exact Nat.le_refl start
    | ScanMode.title start acc =>
      refine ⟨?_, by simp [scanStep]⟩
      intro p hp
      simp only [scanStep, List.mem_singleton] at hp
      subst hp
      exact Nat.le_refl start
  | cons c rest ih =>
    intro pos m hle
    match m with
    | ScanMode.seek =>
      by_cases hcond : (c = '#' && rest.head?.any pySpace) = true
      · have h := ih (pos + 1) (ScanMode.ws pos) (by simp [modeStart])
        rw [scanStep, if_pos hcond]
        exact ⟨fun p hp => h.1 p hp, h.2⟩
      · have h := ih (pos + 1) ScanMode.seek (Nat.le_refl _)
        rw [scanStep, if_neg hcond]
        exact ⟨fun p hp => Nat.le_of_succ_le (h.1 p hp), h.2⟩
    | ScanMode.ws start =>
      by_cases hsp : pySpace c = true
      · have h := ih (pos + 1) (ScanMode.ws start) (by simp [modeStart] at hle ⊢; omega)
        rw [scanStep, if_pos hsp]
        exact ⟨fun p hp => h.1 p hp, h.2⟩
      · have h := ih (pos + 1) (ScanMode.title start [c]) (by simp [modeStart] at hle ⊢; omega)
        rw [scanStep, if_neg hsp]
        exact ⟨fun p hp => h.1 p hp, h.2⟩
    | ScanMode.title start acc =>
      by_cases hnl : c = '\n'
      · have h := ih (pos + 1) ScanMode.seek (Nat.le_refl _)
        rw [scanStep, if_pos hnl]
        simp only [modeStart] at hle
        constructor
        · intro p hp
          rcases List.mem_cons.mp hp with hp | hp
          · subst hp; exact Nat.le_refl start
          · have := h.1 p hp
            simp only [modeStart] at this ⊢
            omega
        · refine List.chain'_cons'.mpr ⟨?_, h.2⟩
          intro y hy
          have := h.1 y (List.mem_of_mem_head? hy)
          simp only [modeStart] at this ⊢
          omega
      · have h := ih (pos + 1) (ScanMode.title start (c :: acc))
          (by simp [modeStart] at hle ⊢; omega)
        rw [scanStep, if_neg hnl]
        exact ⟨fun p hp => h.1 p hp, h.2⟩

/-- C3 (amended): every heading the segmenter records points at a marker
character that is immediately followed by whitespace — anywhere in the text,
not only at line starts — and the recorded start offsets are strictly
increasing, i.e. headings appear in document order. -/
theorem headings_characterization (t : List Char) :
    (∀ p ∈ findHeadings t, t[p.1]? = some '#' ∧ t[p.1 + 1]?.any pySpace = true)
    ∧ List.Chain' (fun a b : Nat × List Char => a.1 < b.1) (findHeadings t) :=
  ⟨scanStep_marker t 0 ScanMode.seek t (by simp) trivial,
   (scanStep_bound_chain t 0 ScanMode.seek (Nat.le_refl 0)).2⟩

/-- C3 counterexample: a marker mid-line (`"x # y"`) and a doubled marker
(`"## T"`) both produce a heading, contradicting the claim that only lines
beginning with a single marker do. -/
theorem headings_not_line_anchored :
    findHeadings ("x # y".toList) = [(2, ['y'])]
    ∧ findHeadings ("## T".toList) = [(1, ['T'])] :=
  ⟨by decide, by decide⟩

/-- Witness for C3 (amended), at the concrete input `"## T"` whose single
heading starts at offset 1. -/
theorem headings_characterization_witness :
    ("## T".toList)[1]? = some '#' ∧ ("## T".toList)[1 + 1]?.any pySpace = true :=
  (headings_characterization ("## T".toList)).1 (1, ['T']) (by decide)

/-- C1: evaluating the segmenter at a text whose last heading is selected.
The heading list is `[(0, "Chapter 1")]`, the title matches the glob, and the
span computation fails (`none` models the uncaught `IndexError` from
`chapters[idx + 1]`, whose guard `idx < len(chapters)` is always true),
instead of producing a span extending to end-of-text. -/
theorem selectSpans_last_heading_error :
    findHeadings ("# Chapter 1\nHello".toList) = [(0, "Chapter 1".toList)]
    ∧ matchesChapterGlob ("Chapter 1".toList) = true
    ∧ selectSpans (findHeadings ("# Chapter 1\nHello".toList)) = none :=
  ⟨by decide, by decide, by decide⟩

/-- C2: evaluating the segmenter at a well-formed two-heading text (both
headings match the glob).  Computing the chapter spans fails with an
`IndexError` (modelled by `none`) at the last heading, so the spans never
partition `[first_heading_start, len(text))`. -/
theorem selectSpans_partition_failure :
    findHeadings ("Preface\n# Chapter 1\nA\n# Chapter 2\nB".toList)
      = [(8, "Chapter 1".toList), (22, "Chapter 2".toList)]
    ∧ matchesChapterGlob ("Chapter 1".toList) = true
    ∧ matchesChapterGlob ("Chapter 2".toList) = true
    ∧ selectSpans (findHeadings ("Preface\n# Chapter 1\nA\n# Chapter 2\nB".toList)) = none :=
  ⟨by decide, by decide, by decide, by decide⟩

theorem processChunkLoop_always_rate_limited (oracle : Nat → Outcome)
    (dir name : List Char) (rd : Nat) (h : ∀ n, oracle n = Outcome.rateLimited) :
    ∀ (r a : Nat), processChunkLoop oracle dir name rd a r
      = ((List.range' a r).flatMap fun i => [ChunkEvent.request name i, ChunkEvent.sleep rd],
        ChunkResult.returnedFailure) := by
  intro r
  induction r with
  | zero => intro a; simp [processChunkLoop]
  | succ r ih =>
    intro a
    rw [List.range'_succ]
    simp only [processChunkLoop, h a, ih (a + 1), List.flatMap_cons, List.cons_append,
      List.nil_append]

theorem flatMap_request_sleep_countP (name : List Char) (rd : Nat) :
    ∀ l : List Nat,
      ((l.flatMap fun i => [ChunkEvent.request name i, ChunkEvent.sleep rd]).countP isRequest
          = l.length)
      ∧ ((l.flatMap fun i => [ChunkEvent.request name i, ChunkEvent.sleep rd]).countP isWriteAudio
          = 0) := by
  intro l
  induction l with
  | nil => simp
  | cons x xs ih =>
    simp only [List.flatMap_cons, List.countP_append, List.length_cons, ih.1, ih.2]
    constructor
    · simp [List.countP_cons, isRequest]
      omega
    · simp [List.countP_cons, isWriteAudio]

/-- C4: when every synthesis attempt is rate-limited, `_process_chunk` first
writes the companion text file, then issues exactly `max_retries` requests,
sleeping `retry_delay` seconds after each rate-limited attempt, writes no
audio file, and returns normally (allowing sibling chunks to proceed). -/
theorem processChunk_rate_limit_exhaustion (oracle : Nat → Outcome)
    (chunk dir name : List Char) (mr rd : Nat)
    (h : ∀ n, oracle n = Outcome.rateLimited) :
    processChunk oracle chunk dir name mr rd
      = (ChunkEvent.writeTxt dir (withSuffix name txtExt) chunk ::
          ((List.range mr).flatMap fun i => [ChunkEvent.request name i, ChunkEvent.sleep rd]),
        ChunkResult.returnedFailure)
    ∧ (processChunk oracle chunk dir name mr rd).1.countP isRequest = mr
    ∧ (processChunk oracle chunk dir name mr rd).1.countP isWriteAudio = 0 := by
  have hloop := processChunkLoop_always_rate_limited oracle dir name rd h mr 0
  have htrace : processChunk oracle chunk dir name mr rd
      = (ChunkEvent.writeTxt dir (withSuffix name txtExt) chunk ::
          ((List.range mr).flatMap fun i => [ChunkEvent.request name i, ChunkEvent.sleep rd]),
        ChunkResult.returnedFailure) := by
    rw [List.range_eq_range']
    simp [processChunk, hloop]
  refine ⟨htrace, ?_, ?_⟩
  · rw [htrace]
    simp only [List.countP_cons, isWriteTxt, isRequest,
      (flatMap_request_sleep_countP name rd (List.range mr)).1, List.length_range]
    simp [isRequest]
  · rw [htrace]
    simp only [List.countP_cons,
      (flatMap_request_sleep_countP name rd (List.range mr)).2]
    simp [isWriteAudio]

/-- Witness for C4 at the default configuration `max_retries=10,
retry_delay=5` and an always-rate-limited service. -/
theorem processChunk_rate_limit_exhaustion_witness :
    processChunk (fun _ => Outcome.rateLimited) ['a'] ['d'] ("f.mp3".toList) 10 5
      = (ChunkEvent.writeTxt ['d'] (withSuffix ("f.mp3".toList) txtExt) ['a'] ::
          ((List.range 10).flatMap fun i =>
            [ChunkEvent.request ("f.mp3".toList) i, ChunkEvent.sleep 5]),
        ChunkResult.returnedFailure)
    ∧ (processChunk (fun _ => Outcome.rateLimited) ['a'] ['d'] ("f.mp3".toList) 10 5).1.countP
        isRequest = 10
    ∧ (processChunk (fun _ => Outcome.rateLimited) ['a'] ['d'] ("f.mp3".toList) 10 5).1.countP
        isWriteAudio = 0 :=
  processChunk_rate_limit_exhaustion (fun _ => Outcome.rateLimited) ['a'] ['d']
    ("f.mp3".toList) 10 5 (fun _ => rfl)

theorem processChunkLoop_perm_raises :
    ∀ (k : Nat) (oracle : Nat → Outcome) (dir name : List Char) (rd a r : Nat),
      k < r → oracle (a + k) = Outcome.permanentError →
      (∀ j, j < k → oracle (a + j) = Outcome.rateLimited) →
      (processChunkLoop oracle dir name rd a r).2 = ChunkResult.raised := by
  intro k
  induction k with
  | zero =>
    intro oracle dir name rd a r hk hperm _
    match r with
    | r + 1 =>
      simp only [Nat.add_zero] at hperm
      simp [processChunkLoop, hperm]
  | succ k ih =>
    intro oracle dir name rd a r hk hperm hrl
    match r with
    | r + 1 =>
      have ha : oracle a = Outcome.rateLimited := by
        have := hrl 0 (Nat.succ_pos k)
        simpa using this
      simp only [processChunkLoop, ha]
      apply ih oracle dir name rd (a + 1) r (by omega)
      · have : a + 1 + k = a + (k + 1) := by omega
        rw [this]
        exact hperm
      · intro j hj
        have : a + 1 + j = a + (j + 1) := by omega
        rw [this]
        exact hrl (j + 1) (by omega)

theorem processChunkLoop_no_perm_no_raise (oracle : Nat → Outcome)
    (dir name : List Char) (rd : Nat)
    (h : ∀ n, oracle n ≠ Outcome.permanentError) :
    ∀ (r a : Nat), (processChunkLoop oracle dir name rd a r).2 ≠ ChunkResult.raised := by
  intro r
  induction r with
  | zero => intro a; simp [processChunkLoop]
  | succ r ih =>
    intro a
    match horc : oracle a with
    | Outcome.success => simp [processChunkLoop, horc]
    | Outcome.rateLimited => simp only [processChunkLoop, horc]; exact ih (a + 1)
    | Outcome.permanentError => exact absurd horc (h a)

/-- C6: a non-rate-limit error from the synthesis call is not caught by
`_process_chunk` — if attempt `k` (after `k` rate-limited attempts that are
still within budget) fails permanently, the function ends by raising; and
rate-limit errors are the only kind handled locally — with no permanent error
the function never raises.  (The raised exception then propagates through the
enclosing `asyncio.TaskGroup`s, which is beyond the function boundary
modelled here.) -/
theorem processChunk_uncaught_permanent (oracle : Nat → Outcome)
    (chunk dir name : List Char) (mr rd k : Nat) :
    (k < mr → oracle k = Outcome.permanentError →
      (∀ j, j < k → oracle j = Outcome.rateLimited) →
      (processChunk oracle chunk dir name mr rd).2 = ChunkResult.raised)
    ∧ ((∀ n, oracle n ≠ Outcome.permanentError) →
      (processChunk oracle chunk dir name mr rd).2 ≠ ChunkResult.raised) := by
  constructor
  · intro hk hperm hrl
    show (processChunkLoop oracle dir name rd 0 mr).2 = ChunkResult.raised
    apply processChunkLoop_perm_raises k oracle dir name rd 0 mr hk
    · simpa using hperm
    · intro j hj
      simpa using hrl j hj
  · intro hno
    show (processChunkLoop oracle dir name rd 0 mr).2 ≠ ChunkResult.raised
    exact processChunkLoop_no_perm_no_raise oracle dir name rd hno mr 0

/-- Witness for C6: a first-attempt permanent error raises; an
always-rate-limited service never does. -/
theorem processChunk_uncaught_permanent_witness :
    (processChunk (fun _ => Outcome.permanentError) ['a'] ['d'] ("f.mp3".toList) 10 5).2
      = ChunkResult.raised
    ∧ (processChunk (fun _ => Outcome.rateLimited) ['b'] ['d'] ("g.mp3".toList) 10 5).2
      ≠ ChunkResult.raised :=
  ⟨(processChunk_uncaught_permanent (fun _ => Outcome.permanentError) ['a'] ['d']
      ("f.mp3".toList) 10 5 0).1 (by omega) rfl (fun j hj => absurd hj (Nat.not_lt_zero j)),
   (processChunk_uncaught_permanent (fun _ => Outcome.rateLimited) ['b'] ['d']
      ("g.mp3".toList) 10 5 0).2 (fun n => by decide)⟩

theorem processChunkLoop_no_txt (oracle : Nat → Outcome) (dir name : List Char)
    (rd : Nat) : ∀ (r a : Nat),
      (processChunkLoop oracle dir name rd a r).1.countP isWriteTxt = 0 := by
  intro r
  induction r with
  | zero => intro a; simp [processChunkLoop]
  | succ r ih =>
    intro a
    match horc : oracle a with
    | Outcome.success => simp [processChunkLoop, horc, List.countP_cons, isWriteTxt]
    | Outcome.rateLimited =>
      simp only [processChunkLoop, horc, List.countP_cons, isWriteTxt]
      simpa [isWriteTxt] using ih (a + 1)
    | Outcome.permanentError => simp [processChunkLoop, horc, List.countP_cons, isWriteTxt]

/-- C7: for every processed chunk, whatever the service outcomes, the very
first event is the write of the companion text file (same basename, `.txt`
extension, content exactly the chunk's text) — hence it precedes every
synthesis request — and no later event writes a text file. -/
theorem processChunk_txt_first (oracle : Nat → Outcome)
    (chunk dir name : List Char) (mr rd : Nat) :
    (processChunk oracle chunk dir name mr rd).1.head?
      = some (ChunkEvent.writeTxt dir (withSuffix name txtExt) chunk)
    ∧ (processChunk oracle chunk dir name mr rd).1.tail.countP isWriteTxt = 0 :=
  ⟨rfl, processChunkLoop_no_txt oracle dir name rd mr 0⟩

theorem processChapterGo_all_skip (fs : List (List Char)) (dir title : List Char)
    (oracle : Nat → Nat → Outcome) :
    ∀ (chunks : List (List Char)) (k : Nat),
      (∀ j, j < chunks.length → speechFilename title (k + j) ∈ fs) →
      processChapterGo fs dir title oracle k chunks = [] := by
  intro chunks
  induction chunks with
  | nil => intro k _; rfl
  | cons c rest ih =>
    intro k h
    have h0 : speechFilename title k ∈ fs := by
      have := h 0 (by simp)
      simpa using this
    simp only [processChapterGo, if_pos h0, List.nil_append]
    apply ih (k + 1)
    intro j hj
    have heq : k + 1 + j = k + (j + 1) := by omega
    rw [heq]
    exact h (j + 1) (by simp only [List.length_cons]; omega)

theorem processChunkLoop_success_mem (oracle : Nat → Outcome)
    (dir name : List Char) (rd a r : Nat) (hr : 0 < r)
    (hs : oracle a = Outcome.success) :
    ChunkEvent.writeAudio dir name ∈ (processChunkLoop oracle dir name rd a r).1 := by
  match r, hr with
  | r + 1, _ => simp [processChunkLoop, hs]

theorem processChapterGo_success_writes (fs : List (List Char))
    (dir title : List Char) (oracle : Nat → Nat → Outcome) :
    ∀ (chunks : List (List Char)) (k j : Nat), j < chunks.length →
      speechFilename title (k + j) ∉ fs →
      oracle (k + j) 0 = Outcome.success →
      ChunkEvent.writeAudio dir (speechFilename title (k + j))
        ∈ processChapterGo fs dir title oracle k chunks := by
  intro chunks
  induction chunks with
  | nil => intro k j hj; simp at hj
  | cons c rest ih =>
    intro k j hj hnot hsucc
    match j with
    | 0 =>
      simp only [Nat.add_zero] at hnot hsucc ⊢
      simp only [processChapterGo, if_neg hnot]
      apply List.mem_append_left
      exact List.mem_cons_of_mem _
        (processChunkLoop_success_mem (oracle k) dir (speechFilename title k) 5 0 10
          (by omega) hsucc)
    | j + 1 =>
      simp only [processChapterGo]
      apply List.mem_append_right
      have heq : k + (j + 1) = k + 1 + j := by omega
      rw [heq] at hnot hsucc ⊢
      exact ih (k + 1) j (by simp only [List.length_cons] at hj; omega) hnot hsucc

theorem mem_writtenNames_of_writeAudio {dir name : List Char}
    {evs : List ChunkEvent} (h : ChunkEvent.writeAudio dir name ∈ evs) :
    name ∈ writtenNames evs := by
  simp only [writtenNames, List.mem_filterMap]
  exact ⟨ChunkEvent.writeAudio dir name, h, rfl⟩

/-- C5: if before a run every chunk's audio file either already exists or
will be produced (its first attempt succeeds), then a second run over the
resulting file set skips every chunk: it produces no events at all — in
particular zero synthesis requests — and leaves the file set identical. -/
theorem processChapter_second_run (fs : List (List Char)) (dir title : List Char)
    (chunks : List (List Char)) (oracle oracle2 : Nat → Nat → Outcome)
    (h : ∀ i, i < chunks.length →
      speechFilename title i ∈ fs ∨ oracle i 0 = Outcome.success) :
    processChapter (runChapter fs dir title chunks oracle) dir title chunks oracle2 = []
    ∧ runChapter (runChapter fs dir title chunks oracle) dir title chunks oracle2
      = runChapter fs dir title chunks oracle := by
  have hall : ∀ i, i < chunks.length →
      speechFilename title i ∈ runChapter fs dir title chunks oracle := by
    intro i hi
    rcases h i hi with hmem | hsucc
    · exact List.mem_append_left _ hmem
    · by_cases hfs : speechFilename title i ∈ fs
      · exact List.mem_append_left _ hfs
      · refine List.mem_append_right _ ?_
        apply mem_writtenNames_of_writeAudio
        have := processChapterGo_success_writes fs dir title oracle chunks 0 i hi
          (by simpa using hfs) (by simpa using hsucc)
        simpa [processChapter] using this
  have hempty : processChapter (runChapter fs dir title chunks oracle) dir title
      chunks oracle2 = [] := by
    apply processChapterGo_all_skip
    intro j hj
    simpa using hall j hj
  refine ⟨hempty, ?_⟩
  conv_lhs => rw [runChapter]
  rw [hempty]
  simp [writtenNames]

/-- Witness for C5: one chapter of one chunk, empty initial file set, a
service that succeeds immediately; the second run is an exact no-op. -/
theorem processChapter_second_run_witness :
    processChapter
        (runChapter [] ['d'] ("Chapter 1".toList) [['a']] (fun _ _ => Outcome.success))
        ['d'] ("Chapter 1".toList) [['a']] (fun _ _ => Outcome.success) = []
    ∧ runChapter
        (runChapter [] ['d'] ("Chapter 1".toList) [['a']] (fun _ _ => Outcome.success))
        ['d'] ("Chapter 1".toList) [['a']] (fun _ _ => Outcome.success)
      = runChapter [] ['d'] ("Chapter 1".toList) [['a']] (fun _ _ => Outcome.success) :=
  processChapter_second_run [] ['d'] ("Chapter 1".toList) [['a']]
    (fun _ _ => Outcome.success) (fun _ _ => Outcome.success)
    (fun _ _ => Or.inr rfl)

theorem speechFilename_eq_base (title : List Char) (i : Nat) :
    speechFilename title i = (slugify title ++ sepList ++ pad3 i) ++ mp3Ext := by
  simp [speechFilename, List.append_assoc]

theorem withSuffix_speechFilename (title : List Char) (i : Nat) :
    withSuffix (speechFilename title i) txtExt
      = (slugify title ++ sepList ++ pad3 i) ++ txtExt := by
  rw [speechFilename_eq_base, withSuffix_append_mp3]

theorem processChunkLoop_writes (oracle : Nat → Outcome) (dir name : List Char)
    (rd : Nat) : ∀ (r a : Nat), ∀ e ∈ (processChunkLoop oracle dir name rd a r).1,
      ∀ q, targetPath e = some q → q = (dir, name) := by
  intro r
  induction r with
  | zero => intro a e he; simp [processChunkLoop] at he
  | succ r ih =>
    intro a e he q hq
    match horc : oracle a with
    | Outcome.success =>
      rw [processChunkLoop, horc] at he
      simp only [List.mem_cons, List.not_mem_nil, or_false] at he
      rcases he with he | he
      · subst he; simp [targetPath] at hq
      · subst he; simpa [targetPath] using hq.symm
    | Outcome.rateLimited =>
      rw [processChunkLoop, horc] at he
      simp only [List.mem_cons] at he
      rcases he with he | he | he
      · subst he; simp [targetPath] at hq
      · subst he; simp [targetPath] at hq
      · exact ih (a + 1) e he q hq
    | Outcome.permanentError =>
      rw [processChunkLoop, horc] at he
      simp only [List.mem_cons, List.not_mem_nil, or_false] at he
      subst he
      simp [targetPath] at hq

theorem processChunk_writes (oracle : Nat → Outcome) (chunk dir name : List Char)
    (mr rd : Nat) : ∀ e ∈ (processChunk oracle chunk dir name mr rd).1,
      ∀ q, targetPath e = some q →
        q = (dir, name) ∨ q = (dir, withSuffix name txtExt) := by
  intro e he q hq
  simp only [processChunk, List.mem_cons] at he
  rcases he with he | he
  · subst he
    right
    simpa [targetPath] using hq.symm
  · exact Or.inl (processChunkLoop_writes oracle dir name rd mr 0 e he q hq)

theorem processChapterGo_writes (fs : List (List Char)) (dir title : List Char)
    (oracle : Nat → Nat → Outcome) :
    ∀ (chunks : List (List Char)) (k : Nat),
      ∀ e ∈ processChapterGo fs dir title oracle k chunks, ∀ q,
        targetPath e = some q →
        ∃ i, k ≤ i ∧ i < k + chunks.length ∧ speechFilename title i ∉ fs ∧
          (q = (dir, speechFilename title i)
            ∨ q = (dir, withSuffix (speechFilename title i) txtExt)) := by
  intro chunks
  induction chunks with
  | nil => intro k e he; simp [processChapterGo] at he
  | cons c rest ih =>
    intro k e he q hq
    simp only [processChapterGo] at he
    rcases List.mem_append.mp he with he | he
    · by_cases hfs : speechFilename title k ∈ fs
      · rw [if_pos hfs] at he
        simp at he
      · rw [if_neg hfs] at he
        refine ⟨k, Nat.le_refl k, by simp only [List.length_cons]; omega, hfs, ?_⟩
        exact processChunk_writes (oracle k) c dir (speechFilename title k) 10 5 e he q hq
    · obtain ⟨i, hki, hlen, hnot, hshape⟩ := ih (k + 1) e he q hq
      exact ⟨i, by omega, by simp only [List.length_cons]; omega, hnot, hshape⟩

/-- C10: when a chunk's audio file already exists, the run writes no file at
all for that chunk — neither its audio file nor its companion `.txt` file is
the target of any write event of the whole chapter trace, since the existence
check precedes the invocation of the chunk converter (and its eager `.txt`
write). -/
theorem processChapter_skip_frame (fs : List (List Char)) (dir title : List Char)
    (chunks : List (List Char)) (oracle : Nat → Nat → Outcome) (i : Nat)
    (hex : speechFilename title i ∈ fs) :
    ∀ e ∈ processChapter fs dir title chunks oracle, ∀ q, targetPath e = some q →
      q.2 ≠ speechFilename title i
      ∧ q.2 ≠ withSuffix (speechFilename title i) txtExt := by
  intro e he q hq
  obtain ⟨j, _, _, hnot, hshape⟩ :=
    processChapterGo_writes fs dir title oracle chunks 0 e he q hq
  rcases hshape with hshape | hshape
  · constructor
    · intro heq
      apply hnot
      have : speechFilename title j = speechFilename title i := by
        have := congrArg Prod.snd hshape
        simp at this
        rw [← this, heq]
      rw [this]
      exact hex
    · intro heq
      have hq2 : q.2 = speechFilename title j := by
        have := congrArg Prod.snd hshape
        simpa using this
      rw [hq2, speechFilename_eq_base title j] at heq
      rw [withSuffix_speechFilename title i] at heq
      exact mp3_append_ne_txt_append _ _ heq
  · constructor
    · intro heq
      have hq2 : q.2 = withSuffix (speechFilename title j) txtExt := by
        have := congrArg Prod.snd hshape
        simpa using this
      rw [hq2, withSuffix_speechFilename title j] at heq
      rw [speechFilename_eq_base title i] at heq
      exact mp3_append_ne_txt_append _ _ heq.symm
    · intro heq
      apply hnot
      have hq2 : q.2 = withSuffix (speechFilename title j) txtExt := by
        have := congrArg Prod.snd hshape
        simpa using this
      rw [hq2, withSuffix_speechFilename title j, withSuffix_speechFilename title i] at heq
      have hbase := List.append_cancel_right heq
      rw [speechFilename_eq_base title j, hbase, ← speechFilename_eq_base title i]
      exact hex

/-- Witness for C10: with the audio file of chunk 0 already present, the
audio write of chunk 1 (an event of the run's trace) targets neither chunk 0's
audio path nor its text path. -/
theorem processChapter_skip_frame_witness :
    speechFilename ("Chapter 1".toList) 1 ≠ speechFilename ("Chapter 1".toList) 0
    ∧ speechFilename ("Chapter 1".toList) 1
      ≠ withSuffix (speechFilename ("Chapter 1".toList) 0) txtExt :=
  processChapter_skip_frame [speechFilename ("Chapter 1".toList) 0] ['d']
    ("Chapter 1".toList) [['a'], ['b']] (fun _ _ => Outcome.success) 0
    (List.mem_singleton.mpr rfl)
    (ChunkEvent.writeAudio ['d'] (speechFilename ("Chapter 1".toList) 1))
    (by decide)
    (['d'], speechFilename ("Chapter 1".toList) 1) rfl

/-- C8 counterexample: two distinct selected chapter titles, `Chapter 1.` and
`Chapter 1!`, slugify to the same string, so chunk 0 of the two chapters is
written to the same audio path. -/
theorem speechFilename_collision :
    matchesChapterGlob ("Chapter 1.".toList) = true
    ∧ matchesChapterGlob ("Chapter 1!".toList) = true
    ∧ "Chapter 1.".toList ≠ "Chapter 1!".toList
    ∧ speechFilename ("Chapter 1.".toList) 0 = speechFilename ("Chapter 1!".toList) 0 :=
  ⟨by decide, by decide, by decide, by decide⟩

/-- C8 (amended): audio file paths of two chunks are distinct whenever the
chapters' slugified titles differ or the chunk indices differ; chapters whose
titles slugify identically collide at equal indices. -/
theorem speechFilename_injective (t1 t2 : List Char) (i1 i2 : Nat)
    (h : slugify t1 ≠ slugify t2 ∨ i1 ≠ i2) :
    speechFilename t1 i1 ≠ speechFilename t2 i2 := by
  intro heq
  have hparts := speechFilename_parts heq
  rcases h with h | h
  · exact h hparts.1
  · exact h hparts.2

/-- Witness for C8 (amended): `Chapter 1` and `Chapter 2` have different
slugs, so their chunk-0 audio paths differ. -/
theorem speechFilename_injective_witness :
    speechFilename ("Chapter 1".toList) 0 ≠ speechFilename ("Chapter 2".toList) 0 :=
  speechFilename_injective ("Chapter 1".toList) ("Chapter 2".toList) 0 0
    (Or.inl (by decide))

theorem snd_mem_of_mem_enumFrom {α : Type} :
    ∀ (l : List α) (n : Nat) (p : Nat × α), p ∈ l.enumFrom n → p.2 ∈ l := by
  intro l
  induction l with
  | nil => intro n p hp; simp [List.enumFrom] at hp
  | cons a l ih =>
    intro n p hp
    simp only [List.enumFrom, List.mem_cons] at hp
    rcases hp with hp | hp
    · subst hp; exact List.mem_cons_self a l
    · exact List.mem_cons_of_mem a (ih (n + 1) p hp)

/-- C9: every file a run writes goes into the output directory (the input
file's directory at the call site) and is named
`{slug(title)}---{index:0>3}.mp3` or `{slug(title)}---{index:0>3}.txt` for
some selected chapter `title` and some in-range chunk index; and for indices
below 1000 the zero-padded index is exactly 3 digits. -/
theorem processBook_output_naming (chunker : List Char → List (List Char))
    (oracle : Nat → Nat → Nat → Outcome) (fs : List (List Char))
    (text outDir : List Char) (evs : List ChunkEvent)
    (h : processBook chunker oracle fs text outDir = some evs) :
    (∀ e ∈ evs, ∀ q, targetPath e = some q →
      q.1 = outDir ∧ ∃ spans s en title i,
        selectSpans (findHeadings text) = some spans ∧ (s, en, title) ∈ spans ∧
        i < (chunker (pySlice text s en)).length ∧
        (q.2 = slugify title ++ sepList ++ pad3 i ++ mp3Ext
          ∨ q.2 = (slugify title ++ sepList ++ pad3 i) ++ txtExt))
    ∧ ∀ i, i < 1000 → (pad3 i).length = 3 := by
  constructor
  · intro e he q hq
    simp only [processBook, Option.map_eq_some'] at h
    obtain ⟨spans, hspans, hevs⟩ := h
    subst hevs
    rw [List.mem_flatMap] at he
    obtain ⟨p, hp, hep⟩ := he
    obtain ⟨i, _, hilen, _, hshape⟩ :=
      processChapterGo_writes fs outDir p.2.2.2 (oracle p.1)
        (chunker (pySlice text p.2.1 p.2.2.1)) 0 e hep q hq
    have hmem : p.2 ∈ spans := snd_mem_of_mem_enumFrom spans 0 p hp
    constructor
    · rcases hshape with hshape | hshape <;> (subst hshape; rfl)
    · refine ⟨spans, p.2.1, p.2.2.1, p.2.2.2, i, hspans, hmem, by omega, ?_⟩
      rcases hshape with hshape | hshape
      · left
        rw [hshape]
        exact rfl
      · right
        rw [hshape]
        exact withSuffix_speechFilename p.2.2.2 i
  · exact fun i hi => pad3_length i hi

/-- Witness for C9: a two-heading text whose last heading is not selected; the
single selected chapter is converted in one chunk, producing a `.txt` and an
`.mp3` write with the canonical names, all in directory `d`. -/
theorem processBook_output_naming_witness :
    (∀ e ∈ [ChunkEvent.writeTxt ['d']
          (withSuffix (speechFilename ("Chapter 1".toList) 0) txtExt)
          ("# Chapter 1\nA\n".toList),
        ChunkEvent.request (speechFilename ("Chapter 1".toList) 0) 0,
        ChunkEvent.writeAudio ['d'] (speechFilename ("Chapter 1".toList) 0)],
      ∀ q, targetPath e = some q →
      q.1 = ['d'] ∧ ∃ spans s en title i,
        selectSpans (findHeadings ("# Chapter 1\nA\n# End\n".toList)) = some spans
        ∧ (s, en, title) ∈ spans
        ∧ i < ((fun t => [t]) (pySlice ("# Chapter 1\nA\n# End\n".toList) s en)).length
        ∧ (q.2 = slugify title ++ sepList ++ pad3 i ++ mp3Ext
          ∨ q.2 = (slugify title ++ sepList ++ pad3 i) ++ txtExt))
    ∧ ∀ i, i < 1000 → (pad3 i).length = 3 :=
  processBook_output_naming (fun t => [t]) (fun _ _ _ => Outcome.success) []
    ("# Chapter 1\nA\n# End\n".toList) ['d']
    [ChunkEvent.writeTxt ['d']
        (withSuffix (speechFilename ("Chapter 1".toList) 0) txtExt)
        ("# Chapter 1\nA\n".toList),
      ChunkEvent.request (speechFilename ("Chapter 1".toList) 0) 0,
      ChunkEvent.writeAudio ['d'] (speechFilename ("Chapter 1".toList) 0)]
    (by decide)
